import Mathlib

/-!
Verification of the janus RDP session engine (Rust sources under
`src-tauri/crates/protocols/rdp/src/`) against its natural-language
specification.  Rust `u16`/`u8`/`u32`/`u64` values are modelled as `Nat`
with explicit `% 2^w` wrapping (release-mode semantics) exactly where the
source arithmetic can wrap; fallible operations return `Option`.
-/

namespace Janus

/-- Wrap a natural number to `u16` range, modelling Rust `u16` wrapping
arithmetic. -/
def w16 (n : Nat) : Nat := n % 65536

/-- Wrapping `u16` subtraction `a - b` (correct model for `a b < 65536`). -/
def wsub16 (a b : Nat) : Nat := w16 (a + 65536 - b)

/-- The `frame_encode.rs` — `enum PatchCodec`. -/
inductive PatchCodec where
  | Raw
  | Jpeg
deriving DecidableEq, Repr

/-- The `frame_encode.rs` — `struct FrameRect { x, y, width, height : u16 }`. -/
structure FrameRect where
  x : Nat
  y : Nat
  width : Nat
  height : Nat
deriving DecidableEq, Repr

instance : Inhabited FrameRect := ⟨⟨0, 0, 0, 0⟩⟩

/-- The fields of a `FrameRect` are `u16` in the source. -/
def FrameRect.WF (r : FrameRect) : Prop :=
  r.x < 65536 ∧ r.y < 65536 ∧ r.width < 65536 ∧ r.height < 65536

instance (r : FrameRect) : Decidable r.WF := by
  unfold FrameRect.WF; infer_instance

/-- The `FrameRect::full` — the full-desktop rectangle. -/
def FrameRect.full (width height : Nat) : FrameRect :=
  ⟨0, 0, width, height⟩

/-- The `FrameRect::area` — `u32::from(width) * u32::from(height)` (cannot
overflow `u32` for `u16` inputs). -/
def FrameRect.area (r : FrameRect) : Nat := r.width * r.height

/-- The `FrameRect::right` — `self.x + self.width - 1` in wrapping `u16`
arithmetic. -/
def FrameRect.right (r : FrameRect) : Nat := wsub16 (w16 (r.x + r.width)) 1

/-- The `FrameRect::bottom` — `self.y + self.height - 1` in wrapping `u16`
arithmetic. -/
def FrameRect.bottom (r : FrameRect) : Nat := wsub16 (w16 (r.y + r.height)) 1

/-- The `FrameRect::intersects_or_adjacent`: the rectangles overlap or touch
with a zero-pixel gap.  The source widens all `u16` values to `i32`, so no
arithmetic in the body wraps; `Nat` comparison is exact. -/
def FrameRect.intersects_or_adjacent (a b : FrameRect) : Bool :=
  decide (¬(a.right + 1 < b.x ∨ b.right + 1 < a.x ∨
            a.bottom + 1 < b.y ∨ b.bottom + 1 < a.y))

/-- The `FrameRect::union` — bounding box; `width = right - left + 1` in
wrapping `u16` arithmetic. -/
def FrameRect.union (a b : FrameRect) : FrameRect :=
  let left := min a.x b.x
  let top := min a.y b.y
  let right := max a.right b.right
  let bottom := max a.bottom b.bottom
  ⟨left, top, w16 (wsub16 right left + 1), w16 (wsub16 bottom top + 1)⟩

/-- Input type of `rect_from_inclusive`: the `ironrdp` `InclusiveRectangle`
with `u16` edge coordinates. -/
structure InclusiveRectangle where
  left : Nat
  top : Nat
  right : Nat
  bottom : Nat
deriving DecidableEq, Repr

/-- The `frame_encode.rs::rect_from_inclusive` — clamp an inclusive rectangle
to the desktop and convert it to a `FrameRect`. -/
def rect_from_inclusive (rect : InclusiveRectangle) (desktop_width desktop_height : Nat) :
    Option FrameRect :=
  if desktop_width = 0 ∨ desktop_height = 0 then
    none
  else
    let left := min rect.left (desktop_width - 1)
    let top := min rect.top (desktop_height - 1)
    let right := min rect.right (desktop_width - 1)
    let bottom := min rect.bottom (desktop_height - 1)
    if right < left ∨ bottom < top then
      none
    else
      some ⟨left, top, right - left + 1, bottom - top + 1⟩

/-- The `frame_encode.rs::total_dirty_area` — `u32` sum of the rectangle
areas (each addition wraps mod `2^32` in release builds). -/
def total_dirty_area (rects : List FrameRect) : Nat :=
  rects.foldl (fun acc r => (acc + r.area) % 2 ^ 32) 0

/-- Rust `u32::saturating_mul`. -/
def satMul32 (a b : Nat) : Nat := min (a * b) (2 ^ 32 - 1)

/-- The `frame_encode.rs::should_emit_full_frame` — integer threshold test
`dirty.saturating_mul(100) >= total.saturating_mul(threshold)`. -/
def should_emit_full_frame (rects : List FrameRect)
    (desktop_width desktop_height threshold_percent : Nat) : Bool :=
  if rects.isEmpty ∨ desktop_width = 0 ∨ desktop_height = 0 then
    false
  else
    decide (satMul32 (total_dirty_area rects) 100 ≥
            satMul32 (desktop_width * desktop_height) threshold_percent)

/-- What the claim asserts `should_emit_full_frame` computes: the same
threshold comparison in exact (unbounded) integer arithmetic.  Spec-side
definition, to be compared with the source-side one. -/
def should_emit_full_frame_exact (rects : List FrameRect)
    (desktop_width desktop_height threshold_percent : Nat) : Bool :=
  if rects.isEmpty ∨ desktop_width = 0 ∨ desktop_height = 0 then
    false
  else
    decide ((rects.map FrameRect.area).sum * 100 ≥
            desktop_width * desktop_height * threshold_percent)

/-! ## PDU framing (`session_task.rs::find_pdu_size`) -/

/-- The `ironrdp_pdu::Action` as used by the framer. -/
inductive Action where
  | X224
  | FastPath
deriving DecidableEq, Repr

/-- The `session_task.rs::find_pdu_size` — locate the next complete PDU in the
read buffer.  Bytes are `u8` values (`Nat < 256`); out-of-range reads
cannot occur because every index is guarded by a length check, mirrored
here with `List.getD`. -/
def find_pdu_size (buf : List Nat) : Option (Action × Nat) :=
  if buf.length < 2 then
    none
  else if buf.getD 0 0 = 3 then
    -- TPKT (X224): byte 0 = 0x03, bytes 2-3 = big-endian 16-bit length
    if buf.length < 4 then
      none
    else
      let length := 256 * buf.getD 2 0 + buf.getD 3 0
      if length = 0 ∨ buf.length < length then
        none
      else
        some (Action.X224, length)
  else if Nat.land (buf.getD 1 0) 128 = 0 then
    -- FastPath, single-byte length
    let length := buf.getD 1 0
    if length = 0 ∨ buf.length < length then
      none
    else
      some (Action.FastPath, length)
  else
    -- FastPath, two-byte length
    if buf.length < 3 then
      none
    else
      let length := Nat.lor (Nat.shiftLeft (Nat.land (buf.getD 1 0) 127) 8) (buf.getD 2 0)
      if length = 0 ∨ buf.length < length then
        none
      else
        some (Action.FastPath, length)

/-! ## Input translation (`input.rs`) -/

/-- The `ironrdp_input::MouseButton` (subset used by the translator). -/
inductive MouseButton where
  | Left
  | Right
  | Middle
  | X1
  | X2
deriving DecidableEq, Repr

/-- The `ironrdp_input::MousePosition`. -/
structure MousePosition where
  x : Nat
  y : Nat
deriving DecidableEq, Repr

/-- The `ironrdp_input::WheelRotations`. -/
structure WheelRotations where
  is_vertical : Bool
  rotation_units : Int
deriving DecidableEq, Repr

/-- The `ironrdp_input::Scancode` as built by `Scancode::from_u8`: an
extended-set flag plus the low 8 bits of the scancode. -/
structure Scancode where
  extended : Bool
  code : Nat
deriving DecidableEq, Repr

/-- The `ironrdp_input::Operation` (constructors used by the translator). -/
inductive Operation where
  | MouseMove (pos : MousePosition)
  | MouseButtonPressed (button : MouseButton)
  | MouseButtonReleased (button : MouseButton)
  | WheelRotations (wheel : WheelRotations)
  | KeyPressed (scancode : Scancode)
  | KeyReleased (scancode : Scancode)
deriving DecidableEq, Repr

/-- The button bitmask table from `input.rs::translate_mouse`. -/
def button_map : List (Nat × MouseButton) :=
  [(1, MouseButton.Left), (2, MouseButton.Right), (4, MouseButton.Middle),
   (8, MouseButton.X1), (16, MouseButton.X2)]

/-- The `input.rs::translate_mouse` — move first, then per-button press and
release transitions in table order, then an optional vertical wheel
operation. -/
def translate_mouse (x y buttons prev_buttons : Nat) (wheel_delta : Int) :
    List Operation :=
  let ops : List Operation := [Operation.MouseMove ⟨x, y⟩]
  let ops := button_map.foldl
    (fun acc p =>
      let was_pressed := Nat.land prev_buttons p.1 ≠ 0
      let is_pressed := Nat.land buttons p.1 ≠ 0
      if is_pressed ∧ ¬was_pressed then
        acc ++ [Operation.MouseButtonPressed p.2]
      else if ¬is_pressed ∧ was_pressed then
        acc ++ [Operation.MouseButtonReleased p.2]
      else
        acc)
    ops
  if wheel_delta ≠ 0 then
    ops ++ [Operation.WheelRotations ⟨true, wheel_delta⟩]
  else
    ops

/-- The `input.rs::translate_key` — `Scancode::from_u8(extended, scancode as u8)`
wrapped in a press or a release operation. -/
def translate_key (scancode : Nat) (extended is_release : Bool) : Operation :=
  let sc : Scancode := ⟨extended, scancode % 256⟩
  if is_release then Operation.KeyReleased sc else Operation.KeyPressed sc

/-! ## `merge_rects` (`frame_encode.rs`)

The Rust function mutates a `Vec` with nested `while` loops and
`swap_remove`; it is embedded as three recursive functions mirroring the
three loops, with `Vec::swap_remove` modelled exactly (replace index `j`
by the last element, then drop the last element). -/

/-- The `Vec::swap_remove(j)` — replace position `j` with the last element and
remove the last element. -/
def swapRemove (l : List FrameRect) (j : Nat) : List FrameRect :=
  (l.set j (l.getLast?.getD default)).dropLast

theorem length_swapRemove (l : List FrameRect) (j : Nat) :
    (swapRemove l j).length = l.length - 1 := by
  simp [swapRemove]

/-- The inner `while j < rects.len()` loop of `merge_rects`, for a fixed
outer index `i`. -/
def innerLoop (rects : List FrameRect) (i j : Nat) (changed : Bool) :
    List FrameRect × Bool :=
  if hj : j < rects.length then
    if (rects.getD i default).intersects_or_adjacent (rects.getD j default) then
      innerLoop
        (swapRemove
          (rects.set i ((rects.getD i default).union (rects.getD j default))) j)
        i j true
    else
      innerLoop rects i (j + 1) changed
  else
    (rects, changed)
termination_by 2 * rects.length - j
decreasing_by
  all_goals (try simp only [length_swapRemove, List.length_set])
  all_goals omega

/-- The `innerLoop` never grows the rectangle list. -/
theorem innerLoop_length_le (rects : List FrameRect) (i j : Nat) (changed : Bool) :
    (innerLoop rects i j changed).1.length ≤ rects.length := by
  rw [innerLoop]
  split
  · split
    · have h := innerLoop_length_le
        (swapRemove
          (rects.set i ((rects.getD i default).union (rects.getD j default))) j)
        i j true
      simp only [length_swapRemove, List.length_set] at h
      omega
    · exact le_trans (innerLoop_length_le rects i (j + 1) changed) le_rfl
  · exact le_rfl
termination_by 2 * rects.length - j
decreasing_by
  all_goals (try simp only [length_swapRemove, List.length_set])
  all_goals omega

/-- Either `innerLoop` does nothing (returning its input unchanged with
the incoming `changed` flag), or it reports a change and strictly shrinks
the list. -/
theorem innerLoop_cases (rects : List FrameRect) (i j : Nat) (changed : Bool) :
    ((innerLoop rects i j changed).2 = changed ∧
      (innerLoop rects i j changed).1 = rects) ∨
    ((innerLoop rects i j changed).2 = true ∧
      (innerLoop rects i j changed).1.length < rects.length) := by
  rw [innerLoop]
  split
  · split
    · rcases innerLoop_cases
        (swapRemove
          (rects.set i ((rects.getD i default).union (rects.getD j default))) j)
        i j true with ⟨h₂, h₁⟩ | ⟨h₂, h₁⟩
      · right
        refine ⟨h₂, ?_⟩
        rw [h₁]
        simp only [length_swapRemove, List.length_set]
        omega
      · right
        refine ⟨h₂, ?_⟩
        have := length_swapRemove
          (rects.set i ((rects.getD i default).union (rects.getD j default))) j
        simp only [List.length_set] at this
        omega
    · exact innerLoop_cases rects i (j + 1) changed
  · left; exact ⟨rfl, rfl⟩
termination_by 2 * rects.length - j
decreasing_by
  all_goals (try simp only [length_swapRemove, List.length_set])
  all_goals omega

/-- The outer `while i < rects.len()` loop of `merge_rects`. -/
def outerLoop (rects : List FrameRect) (i : Nat) (changed : Bool) :
    List FrameRect × Bool :=
  if hi : i < rects.length then
    outerLoop (innerLoop rects i (i + 1) changed).1 (i + 1)
      (innerLoop rects i (i + 1) changed).2
  else
    (rects, changed)
termination_by rects.length - i
decreasing_by
  have := innerLoop_length_le rects i (i + 1) changed
  omega

/-- Either `outerLoop` does nothing, or it reports a change and strictly
shrinks the list. -/
theorem outerLoop_cases (rects : List FrameRect) (i : Nat) (changed : Bool) :
    ((outerLoop rects i changed).2 = changed ∧
      (outerLoop rects i changed).1 = rects) ∨
    ((outerLoop rects i changed).2 = true ∧
      (outerLoop rects i changed).1.length < rects.length) := by
  rw [outerLoop]
  split
  · rcases innerLoop_cases rects i (i + 1) changed with ⟨h₂, h₁⟩ | ⟨h₂, h₁⟩
    · rw [h₁, h₂]
      exact outerLoop_cases rects (i + 1) changed
    · rcases outerLoop_cases (innerLoop rects i (i + 1) changed).1 (i + 1)
        (innerLoop rects i (i + 1) changed).2 with ⟨g₂, g₁⟩ | ⟨g₂, g₁⟩
      · right; rw [g₁, g₂]; exact ⟨h₂, h₁⟩
      · right; exact ⟨g₂, lt_trans g₁ h₁⟩
  · left; exact ⟨rfl, rfl⟩
termination_by rects.length - i
decreasing_by
  all_goals have := innerLoop_length_le rects i (i + 1) changed
  all_goals omega

/-- The outermost `while changed` loop of `merge_rects`. -/
def mergeLoop (rects : List FrameRect) : List FrameRect :=
  if h : (outerLoop rects 0 false).2 = true then
    mergeLoop (outerLoop rects 0 false).1
  else
    (outerLoop rects 0 false).1
termination_by rects.length
decreasing_by
  rcases outerLoop_cases rects 0 false with ⟨h₂, _⟩ | ⟨_, h₁⟩
  · rw [h] at h₂; cases h₂
  · exact h₁

/-- The `frame_encode.rs::merge_rects` — repeatedly merge intersecting or
adjacent rectangles until a fixed point. -/
def merge_rects (rects : List FrameRect) : List FrameRect :=
  if rects.length < 2 then rects else mergeLoop rects

/-- One merge step of `merge_rects`, viewed on the multiset of
rectangles: two intersecting-or-adjacent `u16` rectangles are replaced by
their bounding box. -/
def MStep (s t : Multiset FrameRect) : Prop :=
  ∃ a b u, a.WF ∧ b.WF ∧ a.intersects_or_adjacent b = true ∧
    s = a ::ₘ b ::ₘ u ∧ t = a.union b ::ₘ u

/-- Multisets from which no merge step is possible. -/
def MNormal (s : Multiset FrameRect) : Prop := ∀ t, ¬ MStep s t

/-! ## Adaptive controller (`session_task.rs` constants and lines 308-332) -/

def FRAME_INTERVAL_LEVELS : List Nat := [33, 40, 50, 66]

def FULL_FRAME_THRESHOLD_PERCENT : Nat := 45

def KEYFRAME_INTERVAL_MS : Nat := 2000

def JPEG_QUALITY_MAX : Nat := 92

def JPEG_QUALITY_MIN : Nat := 75

def JPEG_QUALITY_STEP_DOWN : Nat := 5

def JPEG_QUALITY_STEP_UP : Nat := 3

def OVER_BUDGET_STREAK_THRESHOLD : Nat := 3

def UNDER_BUDGET_STREAK_THRESHOLD : Nat := 20

/-- Rust `u8::saturating_add`. -/
def satAdd8 (a b : Nat) : Nat := min (a + b) 255

/-- Rust `u64::saturating_add`. -/
def satAdd64 (a b : Nat) : Nat := min (a + b) (2 ^ 64 - 1)

/-- The mutable controller variables of the session loop
(`frame_interval_idx`, `jpeg_quality`, `over_budget_streak`,
`under_budget_streak`). -/
structure AdaptState where
  frame_interval_idx : Nat
  jpeg_quality : Nat
  over_budget_streak : Nat
  under_budget_streak : Nat
deriving DecidableEq, Repr

/-- One pass of the adaptive-controller block (`session_task.rs` lines
308-332), given the measured `encode_ms` and the `frame_interval_ms` that
was read from `FRAME_INTERVAL_LEVELS` at the top of the tick. -/
def adapt_tick (s : AdaptState) (encode_ms frame_interval_ms : Nat) : AdaptState :=
  let s1 :=
    if encode_ms > frame_interval_ms then
      { s with over_budget_streak := satAdd8 s.over_budget_streak 1,
               under_budget_streak := 0 }
    else
      { s with under_budget_streak := satAdd8 s.under_budget_streak 1,
               over_budget_streak := 0 }
  if s1.over_budget_streak ≥ OVER_BUDGET_STREAK_THRESHOLD then
    { s1 with
      frame_interval_idx :=
        if s1.frame_interval_idx + 1 < FRAME_INTERVAL_LEVELS.length then
          s1.frame_interval_idx + 1
        else s1.frame_interval_idx,
      jpeg_quality := max (s1.jpeg_quality - JPEG_QUALITY_STEP_DOWN) JPEG_QUALITY_MIN,
      over_budget_streak := 0 }
  else if s1.under_budget_streak ≥ UNDER_BUDGET_STREAK_THRESHOLD then
    { s1 with
      frame_interval_idx :=
        if s1.frame_interval_idx > 0 then s1.frame_interval_idx - 1
        else s1.frame_interval_idx,
      jpeg_quality := min (satAdd8 s1.jpeg_quality JPEG_QUALITY_STEP_UP) JPEG_QUALITY_MAX,
      under_budget_streak := 0 }
  else s1

/-! ## Encode tick (`session_task.rs` lines 237-345) -/

/-- The `RdpFrameCodec` as used when building patches. -/
inductive RdpFrameCodec where
  | Raw
  | Jpeg
deriving DecidableEq, Repr

/-- The `RdpFramePatch` as constructed in `session_task.rs` (offset, size,
codec, encoded bytes). -/
structure RdpFramePatch where
  x : Nat
  y : Nat
  width : Nat
  height : Nat
  codec : RdpFrameCodec
  data : List Nat
deriving DecidableEq, Repr

/-- The `RdpFrame` as constructed in `session_task.rs`. -/
structure RdpFrame where
  seq : Nat
  desktop_width : Nat
  desktop_height : Nat
  patches : List RdpFramePatch
  is_keyframe : Bool
deriving DecidableEq, Repr

/-- Environment-dependent inputs of one encode tick: whether the
keyframe interval has elapsed, the outcome of `encode_rect` against the
current decoded image for each rectangle/codec/quality, and the measured
encode duration in milliseconds. -/
structure TickEnv where
  keyframe_due : Bool
  enc : FrameRect → PatchCodec → Nat → Option (List Nat)
  encode_ms : Nat

/-- The session-loop variables relevant to frame emission. -/
structure SessState where
  dirty_rects : List FrameRect
  frame_seq : Nat
  adapt : AdaptState

def codec_to_frame_codec : PatchCodec → RdpFrameCodec
  | PatchCodec.Raw => RdpFrameCodec.Raw
  | PatchCodec.Jpeg => RdpFrameCodec.Jpeg

/-- Keyframe promotion condition (`session_task.rs` lines 242-249). -/
def tick_promote (width height : Nat) (keyframe_due : Bool)
    (dirty : List FrameRect) : Bool :=
  keyframe_due ||
    should_emit_full_frame (merge_rects dirty) width height FULL_FRAME_THRESHOLD_PERCENT

/-- The rectangle set an encode tick works on: the merged dirty rects,
replaced by a single full-desktop rect on keyframe promotion. -/
def tick_merged (width height : Nat) (keyframe_due : Bool)
    (dirty : List FrameRect) : List FrameRect :=
  if tick_promote width height keyframe_due dirty then
    [FrameRect.full width height]
  else
    merge_rects dirty

/-- Per-rectangle encode with the Raw-to-Jpeg fallback
(`session_task.rs` lines 263-284). -/
def encode_one (enc : FrameRect → PatchCodec → Nat → Option (List Nat))
    (default_codec : PatchCodec) (jpeg_quality : Nat) (r : FrameRect) :
    Option RdpFramePatch :=
  match enc r default_codec jpeg_quality with
  | some data =>
    some ⟨r.x, r.y, r.width, r.height, codec_to_frame_codec default_codec, data⟩
  | none =>
    match default_codec with
    | PatchCodec.Raw =>
      match enc r PatchCodec.Jpeg jpeg_quality with
      | some data => some ⟨r.x, r.y, r.width, r.height, RdpFrameCodec.Jpeg, data⟩
      | none => none
    | PatchCodec.Jpeg => none

/-- The patch list produced by one encode tick. -/
def tick_patches (width height : Nat) (env : TickEnv) (st : SessState) :
    List RdpFramePatch :=
  let default_codec :=
    if st.adapt.frame_interval_idx = 0 then PatchCodec.Raw else PatchCodec.Jpeg
  (tick_merged width height env.keyframe_due st.dirty_rects).filterMap
    (encode_one env.enc default_codec st.adapt.jpeg_quality)

/-- One encode tick of the session loop (`session_task.rs` lines
237-345), entered when the dirty-rect set is non-empty and the frame
interval has elapsed.  Returns the updated state, the emitted frame (if
any), and whether the keyframe timer was reset. -/
def encode_tick (width height : Nat) (env : TickEnv) (st : SessState) :
    SessState × Option RdpFrame × Bool :=
  let frame_interval_ms := FRAME_INTERVAL_LEVELS.getD st.adapt.frame_interval_idx 0
  let is_keyframe := tick_promote width height env.keyframe_due st.dirty_rects
  let merged := tick_merged width height env.keyframe_due st.dirty_rects
  let patches := tick_patches width height env st
  let adapt' := adapt_tick st.adapt env.encode_ms frame_interval_ms
  if patches.isEmpty then
    ({ dirty_rects := merged, frame_seq := st.frame_seq, adapt := adapt' }, none, false)
  else
    ({ dirty_rects := [], frame_seq := satAdd64 st.frame_seq 1, adapt := adapt' },
     some ⟨st.frame_seq, width, height, patches, is_keyframe⟩, is_keyframe)

/-- Run a sequence of encode ticks, collecting the emitted frames in
order. -/
def run_ticks (width height : Nat) (envs : List TickEnv) (st : SessState) :
    SessState × List RdpFrame :=
  match envs with
  | [] => (st, [])
  | e :: rest =>
    let r := encode_tick width height e st
    let rest' := run_ticks width height rest r.1
    (rest'.1, r.2.1.toList ++ rest'.2)

/-! ## TLS verifier (`tls.rs::NoCertificateVerification`) -/

/-- The `rustls` DER-encoded certificate bytes. -/
structure CertificateDer where
  bytes : List Nat
deriving DecidableEq, Repr

/-- The `rustls` server name: a DNS name or an IP address. -/
inductive TlsServerName where
  | Dns (name : String)
  | Ip (octets : List Nat)
deriving DecidableEq, Repr

/-- The `rustls` `DigitallySignedStruct`. -/
structure DigitallySignedStruct where
  scheme_id : Nat
  signature : List Nat
deriving DecidableEq, Repr

/-- The `rustls` verification error (never produced by this verifier). -/
inductive TlsError where
  | General (msg : String)
deriving DecidableEq, Repr

/-- The `rustls` success token for certificate verification. -/
inductive ServerCertVerified where
  | assertion
deriving DecidableEq, Repr

/-- The `rustls` success token for signature verification. -/
inductive HandshakeSignatureValid where
  | assertion
deriving DecidableEq, Repr

/-- The `rustls` `SignatureScheme` (the variants listed in `tls.rs`). -/
inductive SignatureScheme where
  | RSA_PKCS1_SHA256
  | RSA_PKCS1_SHA384
  | RSA_PKCS1_SHA512
  | ECDSA_NISTP256_SHA256
  | ECDSA_NISTP384_SHA384
  | ECDSA_NISTP521_SHA512
  | RSA_PSS_SHA256
  | RSA_PSS_SHA384
  | RSA_PSS_SHA512
  | ED25519
deriving DecidableEq, Repr

/-- The `tls.rs::NoCertificateVerification::verify_server_cert` — ignores
every input and reports success. -/
def verify_server_cert (_end_entity : CertificateDer)
    (_intermediates : List CertificateDer) (_server_name : TlsServerName)
    (_ocsp_response : List Nat) (_now : Nat) :
    Except TlsError ServerCertVerified :=
  Except.ok ServerCertVerified.assertion

/-- The `tls.rs::NoCertificateVerification::verify_tls12_signature`. -/
def verify_tls12_signature (_message : List Nat) (_cert : CertificateDer)
    (_dss : DigitallySignedStruct) : Except TlsError HandshakeSignatureValid :=
  Except.ok HandshakeSignatureValid.assertion

/-- The `tls.rs::NoCertificateVerification::verify_tls13_signature`. -/
def verify_tls13_signature (_message : List Nat) (_cert : CertificateDer)
    (_dss : DigitallySignedStruct) : Except TlsError HandshakeSignatureValid :=
  Except.ok HandshakeSignatureValid.assertion

/-- The `tls.rs::NoCertificateVerification::supported_verify_schemes`. -/
def supported_verify_schemes : List SignatureScheme :=
  [SignatureScheme.RSA_PKCS1_SHA256, SignatureScheme.RSA_PKCS1_SHA384,
   SignatureScheme.RSA_PKCS1_SHA512, SignatureScheme.ECDSA_NISTP256_SHA256,
   SignatureScheme.ECDSA_NISTP384_SHA384, SignatureScheme.ECDSA_NISTP521_SHA512,
   SignatureScheme.RSA_PSS_SHA256, SignatureScheme.RSA_PSS_SHA384,
   SignatureScheme.RSA_PSS_SHA512, SignatureScheme.ED25519]

/-- Claim-side description of the per-button operations of
`translate_mouse`: one press if the button bit rose, one release if it
fell, nothing otherwise. -/
def button_transition_ops (buttons prev_buttons mask : Nat) (button : MouseButton) :
    List Operation :=
  if Nat.land buttons mask ≠ 0 ∧ Nat.land prev_buttons mask = 0 then
    [Operation.MouseButtonPressed button]
  else if Nat.land buttons mask = 0 ∧ Nat.land prev_buttons mask ≠ 0 then
    [Operation.MouseButtonReleased button]
  else
    []

/-- A tick environment whose encoder always fails (used as a concrete
instance below). -/
def failing_env : TickEnv :=
  ⟨false, fun _ _ _ => none, 0⟩

/-- A tick environment whose encoder always produces one byte of data. -/
def ok_env : TickEnv :=
  ⟨false, fun _ _ _ => some [42], 7⟩

instance : Inhabited RdpFrame := ⟨⟨0, 0, 0, [], false⟩⟩

/-! ## Arithmetic facts about `FrameRect` operations -/

theorem FrameRect.right_lt (r : FrameRect) : r.right < 65536 := by
  simp only [FrameRect.right, wsub16, w16]
  omega

theorem FrameRect.bottom_lt (r : FrameRect) : r.bottom < 65536 := by
  simp only [FrameRect.bottom, wsub16, w16]
  omega

theorem intersects_or_adjacent_symm (a b : FrameRect) :
    a.intersects_or_adjacent b = b.intersects_or_adjacent a := by
  simp only [FrameRect.intersects_or_adjacent, decide_eq_decide]
  omega

/-- Unfolded form of the bounding-box union. -/
theorem union_def (a b : FrameRect) :
    a.union b =
      ⟨min a.x b.x, min a.y b.y,
       w16 (wsub16 (max a.right b.right) (min a.x b.x) + 1),
       w16 (wsub16 (max a.bottom b.bottom) (min a.y b.y) + 1)⟩ := rfl

theorem union_comm (a b : FrameRect) : a.union b = b.union a := by
  rw [union_def, union_def, Nat.min_comm a.x, Nat.min_comm a.y,
    Nat.max_comm a.right, Nat.max_comm a.bottom]

/-- The union of two rectangles whose corners are genuine `u16` values has
the expected right edge. -/
theorem right_union (a b : FrameRect) (ha : a.x < 65536) (hb : b.x < 65536) :
    (a.union b).right = max a.right b.right := by
  have hra := a.right_lt
  have hrb := b.right_lt
  have hR : max a.right b.right < 65536 := max_lt hra hrb
  have hL : min a.x b.x < 65536 := lt_of_le_of_lt (Nat.min_le_left _ _) ha
  rw [union_def]
  show wsub16 (w16 (min a.x b.x + w16 (wsub16 (max a.right b.right) (min a.x b.x) + 1))) 1 =
    max a.right b.right
  generalize max a.right b.right = R at hR ⊢
  generalize min a.x b.x = L at hL ⊢
  simp only [wsub16, w16]
  omega

theorem bottom_union (a b : FrameRect) (ha : a.y < 65536) (hb : b.y < 65536) :
    (a.union b).bottom = max a.bottom b.bottom := by
  have hra := a.bottom_lt
  have hrb := b.bottom_lt
  have hR : max a.bottom b.bottom < 65536 := max_lt hra hrb
  have hL : min a.y b.y < 65536 := lt_of_le_of_lt (Nat.min_le_left _ _) ha
  rw [union_def]
  show wsub16 (w16 (min a.y b.y + w16 (wsub16 (max a.bottom b.bottom) (min a.y b.y) + 1))) 1 =
    max a.bottom b.bottom
  generalize max a.bottom b.bottom = R at hR ⊢
  generalize min a.y b.y = L at hL ⊢
  simp only [wsub16, w16]
  omega

theorem WF_union {a b : FrameRect} (ha : a.WF) (hb : b.WF) : (a.union b).WF := by
  obtain ⟨hax, hay, -, -⟩ := ha
  obtain ⟨hbx, hby, -, -⟩ := hb
  refine ⟨lt_of_le_of_lt (Nat.min_le_left _ _) hax,
    lt_of_le_of_lt (Nat.min_le_left _ _) hay, ?_, ?_⟩ <;>
    simp only [union_def, w16] <;> omega

theorem union_assoc (a b c : FrameRect) (ha : a.WF) (hb : b.WF) (hc : c.WF) :
    (a.union b).union c = a.union (b.union c) := by
  have h₁ : (a.union b).right = max a.right b.right := right_union a b ha.1 hb.1
  have h₂ : (b.union c).right = max b.right c.right := right_union b c hb.1 hc.1
  have h₃ : (a.union b).bottom = max a.bottom b.bottom := bottom_union a b ha.2.1 hb.2.1
  have h₄ : (b.union c).bottom = max b.bottom c.bottom := bottom_union b c hb.2.1 hc.2.1
  rw [union_def (a.union b) c, union_def a (b.union c), h₁, h₂, h₃, h₄]
  show FrameRect.mk _ _ _ _ = FrameRect.mk _ _ _ _
  simp only [union_def]
  rw [Nat.min_assoc, Nat.min_assoc, Nat.max_assoc, Nat.max_assoc]

/-- Growing the first rectangle by a bounding-box union preserves
intersects-or-adjacency with a third rectangle. -/
theorem intersects_union_left {a b d : FrameRect} (ha : a.WF) (hb : b.WF)
    (h : b.intersects_or_adjacent d = true) :
    (a.union b).intersects_or_adjacent d = true := by
  simp only [FrameRect.intersects_or_adjacent, decide_eq_true_eq] at h ⊢
  push_neg at h ⊢
  obtain ⟨h1, h2, h3, h4⟩ := h
  rw [right_union a b ha.1 hb.1, bottom_union a b ha.2.1 hb.2.1]
  have hux : (a.union b).x = min a.x b.x := rfl
  have huy : (a.union b).y = min a.y b.y := rfl
  rw [hux, huy]
  have e1 : b.right ≤ max a.right b.right := Nat.le_max_right _ _
  have e2 : min a.x b.x ≤ b.x := Nat.min_le_right _ _
  have e3 : b.bottom ≤ max a.bottom b.bottom := Nat.le_max_right _ _
  have e4 : min a.y b.y ≤ b.y := Nat.min_le_right _ _
  omega

/-! ## Fixed-point structure of the merge loops -/

/-- When the inner loop reports no change, no remaining candidate `j`
intersects rectangle `i`. -/
theorem innerLoop_eq_false_close (rects : List FrameRect) (i j : Nat) (changed : Bool)
    (h : (innerLoop rects i j changed).2 = false) :
    ∀ k, j ≤ k → k < rects.length →
      (rects.getD i default).intersects_or_adjacent (rects.getD k default) = false := by
  rw [innerLoop] at h
  split at h
  · split at h
    · exfalso
      rcases innerLoop_cases
          (swapRemove
            (rects.set i ((rects.getD i default).union (rects.getD j default))) j)
          i j true with ⟨h₂, -⟩ | ⟨h₂, -⟩ <;> rw [h₂] at h <;> cases h
    · intro k hk₁ hk₂
      rcases Nat.eq_or_lt_of_le hk₁ with rfl | hlt
      · rename_i hcond
        exact Bool.eq_false_iff.mpr hcond
      · exact innerLoop_eq_false_close rects i (j + 1) changed h k hlt hk₂
  · intro k hk₁ hk₂
    omega
termination_by 2 * rects.length - j
decreasing_by
  all_goals omega

/-- When the outer loop reports no change, no two distinct rectangles at
positions `≥ i` intersect. -/
theorem outerLoop_eq_false_close (rects : List FrameRect) (i : Nat) (changed : Bool)
    (h : (outerLoop rects i changed).2 = false) :
    ∀ a b, i ≤ a → a < b → b < rects.length →
      (rects.getD a default).intersects_or_adjacent (rects.getD b default) = false := by
  rw [outerLoop] at h
  split at h
  · have hp₂ : (innerLoop rects i (i + 1) changed).2 = false := by
      rcases outerLoop_cases (innerLoop rects i (i + 1) changed).1 (i + 1)
          (innerLoop rects i (i + 1) changed).2 with ⟨h₂, -⟩ | ⟨h₂, -⟩
      · rw [h₂] at h; exact h
      · rw [h₂] at h; cases h
    have hp₁ : (innerLoop rects i (i + 1) changed).1 = rects := by
      rcases innerLoop_cases rects i (i + 1) changed with ⟨-, h₁⟩ | ⟨h₂, -⟩
      · exact h₁
      · rw [h₂] at hp₂; cases hp₂
    rw [hp₁, hp₂] at h
    intro a b ha hab hb
    rcases Nat.eq_or_lt_of_le ha with rfl | hlt
    · exact innerLoop_eq_false_close rects i (i + 1) changed hp₂ b hab hb
    · exact outerLoop_eq_false_close rects (i + 1) false h a b hlt hab hb
  · intro a b ha hab hb
    omega
termination_by rects.length - i
decreasing_by
  omega

/-- Converse: if rectangle `i` intersects none of the candidates, the
inner loop is the identity. -/
theorem innerLoop_of_close_false (rects : List FrameRect) (i j : Nat) (changed : Bool)
    (h : ∀ k, j ≤ k → k < rects.length →
      (rects.getD i default).intersects_or_adjacent (rects.getD k default) = false) :
    innerLoop rects i j changed = (rects, changed) := by
  rw [innerLoop]
  split
  · split
    · rename_i hj hcond
      rw [h j le_rfl hj] at hcond
      cases hcond
    · exact innerLoop_of_close_false rects i (j + 1) changed
        (fun k hk₁ hk₂ => h k (Nat.le_of_succ_le hk₁) hk₂)
  · rfl
termination_by 2 * rects.length - j
decreasing_by
  all_goals omega

/-- Converse: on a list with no intersecting pair at positions `≥ i`, the
outer loop is the identity. -/
theorem outerLoop_of_close_false (rects : List FrameRect) (i : Nat) (changed : Bool)
    (h : ∀ a b, i ≤ a → a < b → b < rects.length →
      (rects.getD a default).intersects_or_adjacent (rects.getD b default) = false) :
    outerLoop rects i changed = (rects, changed) := by
  rw [outerLoop]
  split
  · rw [innerLoop_of_close_false rects i (i + 1) changed
      (fun k hk₁ hk₂ => h i k le_rfl hk₁ hk₂)]
    exact outerLoop_of_close_false rects (i + 1) changed
      (fun a b ha hab hb => h a b (Nat.le_of_succ_le ha) hab hb)
  · rfl
termination_by rects.length - i
decreasing_by
  omega

/-- The fixed point reached by `mergeLoop` has no intersecting pair. -/
theorem mergeLoop_close_false (rects : List FrameRect) :
    ∀ a b, a < b → b < (mergeLoop rects).length →
      ((mergeLoop rects).getD a default).intersects_or_adjacent
        ((mergeLoop rects).getD b default) = false := by
  rw [mergeLoop]
  split
  · exact mergeLoop_close_false (outerLoop rects 0 false).1
  · rename_i hne
    have h₂ : (outerLoop rects 0 false).2 = false := by
      simpa using hne
    have h₁ : (outerLoop rects 0 false).1 = rects := by
      rcases outerLoop_cases rects 0 false with ⟨-, g₁⟩ | ⟨g₂, -⟩
      · exact g₁
      · rw [g₂] at h₂; cases h₂
    rw [h₁]
    exact fun a b hab hb =>
      outerLoop_eq_false_close rects 0 false h₂ a b (Nat.zero_le a) hab hb
termination_by rects.length
decreasing_by
  rcases outerLoop_cases rects 0 false with ⟨g₂, -⟩ | ⟨-, g₁⟩
  · rename_i ht; rw [ht] at g₂; cases g₂
  · exact g₁

/-- On a list with no intersecting pair, `mergeLoop` is the identity. -/
theorem mergeLoop_of_close_false (rects : List FrameRect)
    (h : ∀ a b, a < b → b < rects.length →
      (rects.getD a default).intersects_or_adjacent (rects.getD b default) = false) :
    mergeLoop rects = rects := by
  rw [mergeLoop]
  have hOut : outerLoop rects 0 false = (rects, false) :=
    outerLoop_of_close_false rects 0 false
      (fun a b _ hab hb => h a b hab hb)
  simp [hOut]

/-- Positional form of part 1 of the `merge_rects` contract. -/
theorem merge_rects_close_false (rects : List FrameRect) :
    ∀ a b, a < b → b < (merge_rects rects).length →
      ((merge_rects rects).getD a default).intersects_or_adjacent
        ((merge_rects rects).getD b default) = false := by
  unfold merge_rects
  split
  · rename_i hlen
    intro a b hab hb
    omega
  · exact mergeLoop_close_false rects

/-- The `merge_rects` is idempotent. -/
theorem merge_rects_idem (rects : List FrameRect) :
    merge_rects (merge_rects rects) = merge_rects rects := by
  have hP := merge_rects_close_false rects
  conv_lhs => rw [merge_rects]
  split
  · rfl
  · exact mergeLoop_of_close_false (merge_rects rects) hP

/-- The `Pairwise` form of part 1 of the `merge_rects` contract. -/
theorem merge_rects_pairwise (rects : List FrameRect) :
    (merge_rects rects).Pairwise
      (fun a b => a.intersects_or_adjacent b = false) := by
  rw [List.pairwise_iff_getElem]
  intro a b ha hb hab
  have h := merge_rects_close_false rects a b hab hb
  rwa [List.getD_eq_getElem _ _ (lt_trans hab hb), List.getD_eq_getElem _ _ hb] at h

/-! ## Positional list surgery lemmas -/

theorem set_perm {α : Type _} (v : α) :
    ∀ (l : List α) (j : Nat), j < l.length → (l.set j v).Perm (v :: l.eraseIdx j) := by
  intro l
  induction l with
  | nil => intro j h; simp at h
  | cons a t ih =>
    intro j h
    cases j with
    | zero =>
      simp only [List.set_cons_zero, List.eraseIdx_cons_zero]
      exact List.Perm.refl _
    | succ j =>
      simp only [List.set_cons_succ, List.eraseIdx_cons_succ]
      exact ((ih j (by simpa using h)).cons a).trans (List.Perm.swap v a _)

theorem perm_getD_cons_eraseIdx {α : Type _} [Inhabited α] :
    ∀ (l : List α) (j : Nat), j < l.length →
      l.Perm (l.getD j default :: l.eraseIdx j) := by
  intro l
  induction l with
  | nil => intro j h; simp at h
  | cons a t ih =>
    intro j h
    cases j with
    | zero =>
      simp only [List.getD_cons_zero, List.eraseIdx_cons_zero]
      exact List.Perm.refl _
    | succ j =>
      simp only [List.getD_cons_succ, List.eraseIdx_cons_succ]
      exact ((ih j (by simpa using h)).cons a).trans (List.Perm.swap _ a _)

theorem eraseIdx_set_comm {α : Type _} (v : α) :
    ∀ (l : List α) (i j : Nat), i < j →
      (l.set i v).eraseIdx j = (l.eraseIdx j).set i v := by
  intro l
  induction l with
  | nil => intros; simp
  | cons a t ih =>
    intro i j hij
    cases j with
    | zero => omega
    | succ j =>
      cases i with
      | zero => simp
      | succ i =>
        simp only [List.set_cons_succ, List.eraseIdx_cons_succ, List.cons.injEq, true_and]
        exact ih i j (by omega)

theorem swapRemove_perm (l : List FrameRect) (j : Nat) (h : j < l.length) :
    (swapRemove l j).Perm (l.eraseIdx j) := by
  have hne : l ≠ [] := by intro e; subst e; simp at h
  have hy : l.getLast?.getD default = l.getLast hne := by
    rw [List.getLast?_eq_getLast_of_ne_nil hne]; rfl
  have hlen : (l.set j (l.getLast hne)).length = l.length := by simp
  have hLne : l.set j (l.getLast hne) ≠ [] := by
    intro e
    rw [e] at hlen
    simp only [List.length_nil] at hlen
    omega
  have hlast : (l.set j (l.getLast hne)).getLast hLne = l.getLast hne := by
    rw [List.getLast_eq_getElem]
    rw [List.getElem_set]
    split
    · rfl
    · simp only [List.length_set]
      exact (List.getLast_eq_getElem l hne).symm
  have h1 : (l.set j (l.getLast hne)).dropLast ++ [l.getLast hne] =
      l.set j (l.getLast hne) := by
    conv_rhs => rw [← List.dropLast_append_getLast hLne]
    rw [hlast]
  have h3 : ((l.set j (l.getLast hne)).dropLast ++ [l.getLast hne]).Perm
      (l.getLast hne :: l.eraseIdx j) := by
    rw [h1]; exact set_perm _ l j h
  have h4 : (l.getLast hne :: (l.set j (l.getLast hne)).dropLast).Perm
      (l.getLast hne :: l.eraseIdx j) :=
    List.perm_append_comm.trans h3
  have h5 := h4.cons_inv
  unfold swapRemove
  rw [hy]
  exact h5

/-! ## The merge step as multiset rewriting -/

theorem coe_merge_pair (l : List FrameRect) (i j : Nat) (hij : i < j) (hj : j < l.length) :
    (l : Multiset FrameRect) =
      l.getD i default ::ₘ l.getD j default ::ₘ
        (((l.eraseIdx j).eraseIdx i : List FrameRect) : Multiset FrameRect) := by
  have hi : i < l.length := lt_trans hij hj
  have hi' : i < (l.eraseIdx j).length := by
    rw [List.length_eraseIdx]
    simp only [hj, if_true]
    omega
  have e3 : (l.eraseIdx j).getD i default = l.getD i default := by
    rw [List.getD_eq_getElem _ _ hi', List.getD_eq_getElem _ _ hi]
    exact List.getElem_eraseIdx_of_lt l j i hi' hij
  calc (l : Multiset FrameRect)
      = ↑(l.getD j default :: l.eraseIdx j) :=
        Multiset.coe_eq_coe.mpr (perm_getD_cons_eraseIdx l j hj)
    _ = l.getD j default ::ₘ ↑(l.eraseIdx j) := (Multiset.cons_coe _ _).symm
    _ = l.getD j default ::ₘ
          ↑((l.eraseIdx j).getD i default :: (l.eraseIdx j).eraseIdx i) := by
        rw [Multiset.coe_eq_coe.mpr (perm_getD_cons_eraseIdx (l.eraseIdx j) i hi')]
    _ = l.getD j default ::ₘ l.getD i default ::ₘ ↑((l.eraseIdx j).eraseIdx i) := by
        rw [← Multiset.cons_coe, e3]
    _ = l.getD i default ::ₘ l.getD j default ::ₘ ↑((l.eraseIdx j).eraseIdx i) :=
        Multiset.cons_swap _ _ _

theorem coe_swapRemove_set (l : List FrameRect) (i j : Nat) (v : FrameRect)
    (hij : i < j) (hj : j < l.length) :
    ((swapRemove (l.set i v) j : List FrameRect) : Multiset FrameRect) =
      v ::ₘ (((l.eraseIdx j).eraseIdx i : List FrameRect) : Multiset FrameRect) := by
  have hj' : j < (l.set i v).length := by simpa using hj
  have hi' : i < (l.eraseIdx j).length := by
    rw [List.length_eraseIdx]
    simp only [hj, if_true]
    omega
  have e1 := swapRemove_perm (l.set i v) j hj'
  rw [eraseIdx_set_comm v l i j hij] at e1
  calc ((swapRemove (l.set i v) j : List FrameRect) : Multiset FrameRect)
      = ↑((l.eraseIdx j).set i v) := Multiset.coe_eq_coe.mpr e1
    _ = ↑(v :: (l.eraseIdx j).eraseIdx i) :=
        Multiset.coe_eq_coe.mpr (set_perm v _ i hi')
    _ = v ::ₘ ↑((l.eraseIdx j).eraseIdx i) := (Multiset.cons_coe _ _).symm

theorem mem_swapRemove_set {r : FrameRect} (l : List FrameRect) (i j : Nat)
    (v : FrameRect) (hij : i < j) (hj : j < l.length)
    (hr : r ∈ swapRemove (l.set i v) j) : r = v ∨ r ∈ l := by
  have hm : r ∈ ((swapRemove (l.set i v) j : List FrameRect) : Multiset FrameRect) := by
    simpa using hr
  rw [coe_swapRemove_set l i j v hij hj] at hm
  rcases Multiset.mem_cons.mp hm with h | h
  · exact Or.inl h
  · right
    have h' : r ∈ (l.eraseIdx j).eraseIdx i := by simpa using h
    exact (List.eraseIdx_sublist l j).subset ((List.eraseIdx_sublist _ i).subset h')

/-- A merge performed by the inner loop is an `MStep` on the underlying
multiset. -/
theorem mstep_of_indices (l : List FrameRect) (i j : Nat) (hij : i < j)
    (hj : j < l.length) (hwf : ∀ r ∈ l, r.WF)
    (hcl : (l.getD i default).intersects_or_adjacent (l.getD j default) = true) :
    MStep (l : Multiset FrameRect)
      ((swapRemove (l.set i ((l.getD i default).union (l.getD j default))) j :
        List FrameRect) : Multiset FrameRect) := by
  have hi : i < l.length := lt_trans hij hj
  refine ⟨l.getD i default, l.getD j default,
    ↑((l.eraseIdx j).eraseIdx i), ?_, ?_, hcl, ?_, ?_⟩
  · exact hwf _ (by rw [List.getD_eq_getElem _ _ hi]; exact List.getElem_mem _)
  · exact hwf _ (by rw [List.getD_eq_getElem _ _ hj]; exact List.getElem_mem _)
  · exact coe_merge_pair l i j hij hj
  · exact coe_swapRemove_set l i j _ hij hj

/-- The inner loop only performs `MStep` rewrites, and preserves
well-formedness of all rectangles. -/
theorem innerLoop_rtg (rects : List FrameRect) (i j : Nat) (changed : Bool)
    (hij : i < j) (hwf : ∀ r ∈ rects, r.WF) :
    Relation.ReflTransGen MStep (rects : Multiset FrameRect)
      (((innerLoop rects i j changed).1 : List FrameRect) : Multiset FrameRect) ∧
    (∀ r ∈ (innerLoop rects i j changed).1, r.WF) := by
  rw [innerLoop]
  split
  · split
    · rename_i hj hcl
      have hwfi : (rects.getD i default).WF :=
        hwf _ (by rw [List.getD_eq_getElem _ _ (lt_trans hij hj)]; exact List.getElem_mem _)
      have hwfj : (rects.getD j default).WF :=
        hwf _ (by rw [List.getD_eq_getElem _ _ hj]; exact List.getElem_mem _)
      have hstep := mstep_of_indices rects i j hij hj hwf hcl
      have hwf' : ∀ r ∈ swapRemove
          (rects.set i ((rects.getD i default).union (rects.getD j default))) j,
          r.WF := by
        intro r hr
        rcases mem_swapRemove_set rects i j _ hij hj hr with rfl | hr'
        · exact WF_union hwfi hwfj
        · exact hwf r hr'
      obtain ⟨hr, hw⟩ := innerLoop_rtg
        (swapRemove
          (rects.set i ((rects.getD i default).union (rects.getD j default))) j)
        i j true hij hwf'
      exact ⟨Relation.ReflTransGen.head hstep hr, hw⟩
    · exact innerLoop_rtg rects i (j + 1) changed (lt_trans hij (Nat.lt_succ_self j)) hwf
  · exact ⟨Relation.ReflTransGen.refl, hwf⟩
termination_by 2 * rects.length - j
decreasing_by
  all_goals (try simp only [length_swapRemove, List.length_set])
  all_goals omega

/-- The outer loop only performs `MStep` rewrites. -/
theorem outerLoop_rtg (rects : List FrameRect) (i : Nat) (changed : Bool)
    (hwf : ∀ r ∈ rects, r.WF) :
    Relation.ReflTransGen MStep (rects : Multiset FrameRect)
      (((outerLoop rects i changed).1 : List FrameRect) : Multiset FrameRect) ∧
    (∀ r ∈ (outerLoop rects i changed).1, r.WF) := by
  rw [outerLoop]
  split
  · obtain ⟨h₁, h₂⟩ := innerLoop_rtg rects i (i + 1) changed (Nat.lt_succ_self i) hwf
    obtain ⟨g₁, g₂⟩ := outerLoop_rtg (innerLoop rects i (i + 1) changed).1 (i + 1)
      (innerLoop rects i (i + 1) changed).2 h₂
    exact ⟨h₁.trans g₁, g₂⟩
  · exact ⟨Relation.ReflTransGen.refl, hwf⟩
termination_by rects.length - i
decreasing_by
  have := innerLoop_length_le rects i (i + 1) changed
  omega

/-- The fixed-point loop only performs `MStep` rewrites. -/
theorem mergeLoop_rtg (rects : List FrameRect) (hwf : ∀ r ∈ rects, r.WF) :
    Relation.ReflTransGen MStep (rects : Multiset FrameRect)
      ((mergeLoop rects : List FrameRect) : Multiset FrameRect) ∧
    (∀ r ∈ mergeLoop rects, r.WF) := by
  rw [mergeLoop]
  split
  · obtain ⟨h₁, h₂⟩ := outerLoop_rtg rects 0 false hwf
    obtain ⟨g₁, g₂⟩ := mergeLoop_rtg (outerLoop rects 0 false).1 h₂
    exact ⟨h₁.trans g₁, g₂⟩
  · exact outerLoop_rtg rects 0 false hwf
termination_by rects.length
decreasing_by
  rcases outerLoop_cases rects 0 false with ⟨g₂, -⟩ | ⟨-, g₁⟩
  · rename_i ht; rw [ht] at g₂; cases g₂
  · exact g₁

/-- The `merge_rects` only performs `MStep` rewrites on the multiset of
rectangles. -/
theorem merge_rects_rtg (rects : List FrameRect) (hwf : ∀ r ∈ rects, r.WF) :
    Relation.ReflTransGen MStep (rects : Multiset FrameRect)
      ((merge_rects rects : List FrameRect) : Multiset FrameRect) := by
  unfold merge_rects
  split
  · exact Relation.ReflTransGen.refl
  · exact (mergeLoop_rtg rects hwf).1

/-! ## Confluence of the merge step -/

theorem mstep_mk (a b : FrameRect) (u : Multiset FrameRect) (ha : a.WF) (hb : b.WF)
    (hcl : a.intersects_or_adjacent b = true) :
    MStep (a ::ₘ b ::ₘ u) (a.union b ::ₘ u) :=
  ⟨a, b, u, ha, hb, hcl, rfl, rfl⟩

theorem close_symm_true {a b : FrameRect} (h : a.intersects_or_adjacent b = true) :
    b.intersects_or_adjacent a = true := by
  rwa [intersects_or_adjacent_symm b a]

/-- Growing the second argument of the union also preserves
intersects-or-adjacency. -/
theorem intersects_union_right {a b d : FrameRect} (ha : a.WF) (hb : b.WF)
    (h : a.intersects_or_adjacent d = true) :
    (a.union b).intersects_or_adjacent d = true := by
  rw [union_comm]
  exact intersects_union_left hb ha h

/-- The merge step is strongly locally confluent: two diverging single
steps can be joined in at most one further step on each side. -/
theorem mstep_strongly_confluent :
    ∀ s t u, MStep s t → MStep s u →
      ∃ e, Relation.ReflGen MStep t e ∧ Relation.ReflTransGen MStep u e := by
  rintro s t u ⟨a, b, r₁, hwa, hwb, hab, rfl, rfl⟩ ⟨c, d, r₂, hwc, hwd, hcd, hs₂, rfl⟩
  rcases Multiset.cons_eq_cons.mp hs₂ with ⟨hac, h2⟩ | ⟨hac, cs, h2, h3⟩
  · subst hac
    rcases Multiset.cons_eq_cons.mp h2 with ⟨hbd, hr⟩ | ⟨hbd, cs, hbr, hdr⟩
    · -- both steps merge the same pair
      subst hbd; subst hr
      exact ⟨a.union b ::ₘ r₁, Relation.ReflGen.refl, Relation.ReflTransGen.refl⟩
    · -- pairs (a,b) and (a,d) sharing the first element
      subst hbr; subst hdr
      refine ⟨(a.union b).union d ::ₘ cs, Relation.ReflGen.single ?_,
        Relation.ReflTransGen.single ?_⟩
      · exact mstep_mk (a.union b) d cs (WF_union hwa hwb) hwd
          (intersects_union_right hwa hwb hcd)
      · have hrot : (a.union d).union b = (a.union b).union d := by
          rw [union_assoc a d b hwa hwd hwb, union_comm d b,
            ← union_assoc a b d hwa hwb hwd]
        rw [← hrot]
        exact mstep_mk (a.union d) b cs (WF_union hwa hwd) hwb
          (intersects_union_right hwa hwd hab)
  · rcases Multiset.cons_eq_cons.mp h2 with ⟨hbc, hr⟩ | ⟨hbc, cs', hbr, hcs⟩
    · subst hbc; subst hr
      rcases Multiset.cons_eq_cons.mp h3 with ⟨hda, hr2⟩ | ⟨hda, cs'', h3a, h3b⟩
      · -- pairs (a,b) and (b,a): the same unordered pair
        rw [hda, hr2]
        refine ⟨a.union b ::ₘ r₁, Relation.ReflGen.refl, ?_⟩
        rw [union_comm b a]
      · -- pairs (a,b) and (b,d) sharing b
        subst h3a; subst h3b
        refine ⟨(a.union b).union d ::ₘ cs'', Relation.ReflGen.single ?_,
          Relation.ReflTransGen.single ?_⟩
        · exact mstep_mk (a.union b) d cs'' (WF_union hwa hwb) hwd
            (intersects_union_left hwa hwb hcd)
        · have hrot : (b.union d).union a = (a.union b).union d := by
            rw [union_comm (b.union d) a, ← union_assoc a b d hwa hwb hwd]
          rw [← hrot]
          exact mstep_mk (b.union d) a cs'' (WF_union hwb hwd) hwa
            (intersects_union_right hwb hwd (close_symm_true hab))
    · subst hbr; subst hcs
      rcases Multiset.cons_eq_cons.mp h3 with ⟨hda, hr2⟩ | ⟨hda, cs'', h3a, h3b⟩
      · -- pairs (a,b) and (c,a) sharing a
        subst hr2
        rw [hda] at hcd hwd ⊢
        refine ⟨(a.union b).union c ::ₘ cs', Relation.ReflGen.single ?_,
          Relation.ReflTransGen.single ?_⟩
        · exact mstep_mk (a.union b) c cs' (WF_union hwa hwb) hwc
            (intersects_union_right hwa hwb (close_symm_true hcd))
        · have hrot : (c.union a).union b = (a.union b).union c := by
            rw [union_assoc c a b hwc hwa hwb, union_comm c (a.union b)]
          rw [← hrot]
          exact mstep_mk (c.union a) b cs' (WF_union hwc hwa) hwb
            (intersects_union_left hwc hwa hab)
      · subst h3a
        rcases Multiset.cons_eq_cons.mp h3b with ⟨hbd, hcc⟩ | ⟨hbd, E, hE1, hE2⟩
        · -- pairs (a,b) and (c,b) sharing b
          subst hbd; subst hcc
          refine ⟨(a.union b).union c ::ₘ cs', Relation.ReflGen.single ?_,
            Relation.ReflTransGen.single ?_⟩
          · exact mstep_mk (a.union b) c cs' (WF_union hwa hwb) hwc
              (intersects_union_left hwa hwb (close_symm_true hcd))
          · have hrot : (c.union b).union a = (a.union b).union c := by
              rw [union_assoc c b a hwc hwb hwa, union_comm b a,
                union_comm c (a.union b)]
            rw [← hrot]
            exact mstep_mk (c.union b) a cs' (WF_union hwc hwb) hwa
              (intersects_union_left hwc hwb (close_symm_true hab))
        · -- disjoint pairs (a,b) and (c,d)
          subst hE1; subst hE2
          refine ⟨c.union d ::ₘ a.union b ::ₘ E, Relation.ReflGen.single ?_,
            Relation.ReflTransGen.single ?_⟩
          · have e1 : a.union b ::ₘ c ::ₘ d ::ₘ E = c ::ₘ d ::ₘ a.union b ::ₘ E := by
              rw [Multiset.cons_swap (a.union b) c, Multiset.cons_swap (a.union b) d]
            rw [e1]
            exact mstep_mk c d (a.union b ::ₘ E) hwc hwd hcd
          · have e2 : c.union d ::ₘ a ::ₘ b ::ₘ E = a ::ₘ b ::ₘ c.union d ::ₘ E := by
              rw [Multiset.cons_swap (c.union d) a, Multiset.cons_swap (c.union d) b]
            have e3 : c.union d ::ₘ a.union b ::ₘ E = a.union b ::ₘ c.union d ::ₘ E :=
              Multiset.cons_swap _ _ _
            rw [e2, e3]
            exact mstep_mk a b (c.union d ::ₘ E) hwa hwb hab

/-- A list with no intersecting pair is a normal form for the merge
step. -/
theorem mnormal_of_pairwise (m : List FrameRect)
    (hpm : m.Pairwise (fun x y => x.intersects_or_adjacent y = false)) :
    MNormal (m : Multiset FrameRect) := by
  rintro t ⟨a, b, u, -, -, hcl, hs, -⟩
  have hcoe : (m : Multiset FrameRect) = ↑(a :: b :: u.toList) := by
    rw [hs, ← Multiset.cons_coe, ← Multiset.cons_coe, Multiset.coe_toList]
  have hperm : m.Perm (a :: b :: u.toList) := Multiset.coe_eq_coe.mp hcoe
  have hsym : ∀ {x y : FrameRect}, x.intersects_or_adjacent y = false →
      y.intersects_or_adjacent x = false := by
    intro x y hxy
    rw [intersects_or_adjacent_symm]
    exact hxy
  have hp2 := (hperm.pairwise_iff hsym).mp hpm
  rcases List.pairwise_cons.mp hp2 with ⟨hhead, -⟩
  have := hhead b (List.mem_cons_self _ _)
  rw [hcl] at this
  cases this

/-- A reduction sequence starting from a normal form is trivial. -/
theorem rtg_eq_of_mnormal {s e : Multiset FrameRect} (hn : MNormal s)
    (h : Relation.ReflTransGen MStep s e) : s = e := by
  rcases Relation.ReflTransGen.cases_head h with rfl | ⟨m, hstep, -⟩
  · rfl
  · exact absurd hstep (hn m)

/-- Normal forms reached from a common multiset are unique. -/
theorem mstep_unique_nf {s n₁ n₂ : Multiset FrameRect}
    (h₁ : Relation.ReflTransGen MStep s n₁) (h₂ : Relation.ReflTransGen MStep s n₂)
    (hn₁ : MNormal n₁) (hn₂ : MNormal n₂) : n₁ = n₂ := by
  obtain ⟨e, he₁, he₂⟩ := Relation.church_rosser mstep_strongly_confluent h₁ h₂
  rw [rtg_eq_of_mnormal hn₁ he₁, rtg_eq_of_mnormal hn₂ he₂]

/-- The `merge_rects` is order-insensitive: permuted inputs with `u16` fields
produce permuted (multiset-equal) outputs. -/
theorem merge_rects_perm (l₁ l₂ : List FrameRect)
    (h₁ : ∀ r ∈ l₁, r.WF) (h₂ : ∀ r ∈ l₂, r.WF) (hp : l₁.Perm l₂) :
    (merge_rects l₁).Perm (merge_rects l₂) := by
  have e : (l₁ : Multiset FrameRect) = ↑l₂ := Multiset.coe_eq_coe.mpr hp
  have r₁ := merge_rects_rtg l₁ h₁
  have r₂ := merge_rects_rtg l₂ h₂
  rw [← e] at r₂
  exact Multiset.coe_eq_coe.mp
    (mstep_unique_nf r₁ r₂
      (mnormal_of_pairwise _ (merge_rects_pairwise l₁))
      (mnormal_of_pairwise _ (merge_rects_pairwise l₂)))

/-! ## Helper facts for the claims -/

/-- Bit-disjoint or is addition: `m * 2^n ||| c = m * 2^n + c` for
`c < 2^n`. -/
theorem lor_eq_add_of_lt :
    ∀ (n m c : Nat), c < 2 ^ n → m * 2 ^ n ||| c = m * 2 ^ n + c := by
  intro n
  induction n with
  | zero =>
    intro m c hc
    have hz : c = 0 := by omega
    subst hz
    simp
  | succ n ih =>
    intro m c hc
    have hb : m * 2 ^ (n + 1) = Nat.bit false (m * 2 ^ n) := by
      rw [Nat.bit_val]
      simp only [Bool.toNat_false, Nat.add_zero]
      ring
    have hc' : Nat.bit (decide (c % 2 = 1)) (c / 2) = c := by
      have h := Nat.bit_decide_mod_two_eq_one_shiftRight_one c
      rwa [Nat.shiftRight_one] at h
    calc m * 2 ^ (n + 1) ||| c
        = Nat.bit false (m * 2 ^ n) ||| Nat.bit (decide (c % 2 = 1)) (c / 2) := by
          rw [hb, hc']
      _ = Nat.bit (false || decide (c % 2 = 1)) (m * 2 ^ n ||| c / 2) :=
          Nat.lor_bit false (m * 2 ^ n) (decide (c % 2 = 1)) (c / 2)
      _ = Nat.bit (decide (c % 2 = 1)) (m * 2 ^ n + c / 2) := by
          rw [Bool.false_or, ih m (c / 2) (by omega)]
      _ = m * 2 ^ (n + 1) + c := by
          rw [Nat.bit_val]
          have h2 : 2 * (c / 2) + (decide (c % 2 = 1)).toNat = c := by
            by_cases hp : c % 2 = 1 <;> simp [hp] <;> omega
          have h3 : m * 2 ^ (n + 1) = 2 * (m * 2 ^ n) := by ring
          omega

/-- The running mod-`2^32` accumulation of areas equals the plain sum
mod `2^32`. -/
theorem foldl_area_mod (l : List FrameRect) :
    ∀ acc, acc < 2 ^ 32 →
      l.foldl (fun acc r => (acc + r.area) % 2 ^ 32) acc =
        (acc + (l.map FrameRect.area).sum) % 2 ^ 32 := by
  induction l with
  | nil =>
    intro acc h
    simp only [List.foldl_nil, List.map_nil, List.sum_nil, Nat.add_zero]
    omega
  | cons a t ih =>
    intro acc h
    simp only [List.foldl_cons, List.map_cons, List.sum_cons]
    rw [ih ((acc + a.area) % 2 ^ 32) (Nat.mod_lt _ (by norm_num))]
    rw [Nat.mod_add_mod]
    congr 1
    omega

theorem total_dirty_area_eq (rects : List FrameRect) :
    total_dirty_area rects = (rects.map FrameRect.area).sum % 2 ^ 32 := by
  have h := foldl_area_mod rects 0 (by norm_num)
  simpa [total_dirty_area] using h

/-! ## The claims -/

/-- Claim C9: the TLS certificate verifier accepts unconditionally: every
certificate chain, server name, OCSP response and timestamp verifies;
every TLS 1.2 and TLS 1.3 signature is valid; and the supported signature
schemes are a fixed list independent of any input. -/
theorem claim_C9 :
    (∀ end_entity intermediates server_name ocsp_response now,
      verify_server_cert end_entity intermediates server_name ocsp_response now =
        Except.ok ServerCertVerified.assertion) ∧
    (∀ message cert dss,
      verify_tls12_signature message cert dss =
        Except.ok HandshakeSignatureValid.assertion) ∧
    (∀ message cert dss,
      verify_tls13_signature message cert dss =
        Except.ok HandshakeSignatureValid.assertion) ∧
    supported_verify_schemes =
      [SignatureScheme.RSA_PKCS1_SHA256, SignatureScheme.RSA_PKCS1_SHA384,
       SignatureScheme.RSA_PKCS1_SHA512, SignatureScheme.ECDSA_NISTP256_SHA256,
       SignatureScheme.ECDSA_NISTP384_SHA384, SignatureScheme.ECDSA_NISTP521_SHA512,
       SignatureScheme.RSA_PSS_SHA256, SignatureScheme.RSA_PSS_SHA384,
       SignatureScheme.RSA_PSS_SHA512, SignatureScheme.ED25519] :=
  ⟨fun _ _ _ _ _ => rfl, fun _ _ _ => rfl, fun _ _ _ => rfl, rfl⟩

/-- Claim C10: `translate_key` depends only on the low 8 bits of the
scancode (scancodes 256 apart alias to the same operation), and always
produces exactly one operation — a key press when `is_release` is false
and a key release when it is true. -/
theorem claim_C10 :
    ∀ (scancode : Nat) (extended is_release : Bool),
      translate_key scancode extended is_release =
        translate_key (scancode % 256) extended is_release ∧
      translate_key scancode extended false =
        Operation.KeyPressed ⟨extended, scancode % 256⟩ ∧
      translate_key scancode extended true =
        Operation.KeyReleased ⟨extended, scancode % 256⟩ := by
  intro s e r
  have hm : s % 256 % 256 = s % 256 := Nat.mod_mod_of_dvd s dvd_rfl
  refine ⟨?_, rfl, rfl⟩
  simp [translate_key, hm]

/-- Claim C2: `find_pdu_size` completeness conditions.  Legacy marker
(first byte `0x03`): a complete PDU is reported exactly when at least 4
header bytes are buffered, the big-endian 16-bit length `L` at bytes 2-3
is non-zero, and the buffer holds at least `L` bytes (the reported size
is `L`).  Fast-path with clear high bit: the second byte is the direct
7-bit length.  Fast-path with set high bit: at least 3 bytes are needed,
and the low 7 bits of byte 1 combine with byte 2 as a 15-bit big-endian
length.  A declared length of zero is always incomplete. -/
theorem claim_C2 :
    ∀ (buf : List Nat) (L : Nat),
      (buf.getD 0 0 = 3 →
        (find_pdu_size buf = some (Action.X224, L) ↔
          4 ≤ buf.length ∧ L = 256 * buf.getD 2 0 + buf.getD 3 0 ∧ L ≠ 0 ∧
            L ≤ buf.length)) ∧
      (2 ≤ buf.length → buf.getD 0 0 ≠ 3 → Nat.land (buf.getD 1 0) 128 = 0 →
        (find_pdu_size buf = some (Action.FastPath, L) ↔
          L = buf.getD 1 0 ∧ L ≠ 0 ∧ L ≤ buf.length)) ∧
      (2 ≤ buf.length → buf.getD 0 0 ≠ 3 → Nat.land (buf.getD 1 0) 128 ≠ 0 →
        (find_pdu_size buf = some (Action.FastPath, L) ↔
          3 ≤ buf.length ∧
          L = Nat.lor (Nat.shiftLeft (Nat.land (buf.getD 1 0) 127) 8) (buf.getD 2 0) ∧
          L ≠ 0 ∧ L ≤ buf.length)) ∧
      (buf.getD 2 0 < 256 →
        Nat.lor (Nat.shiftLeft (Nat.land (buf.getD 1 0) 127) 8) (buf.getD 2 0) =
          256 * (buf.getD 1 0 % 128) + buf.getD 2 0) := by
  intro buf L
  refine ⟨?_, ?_, ?_, ?_⟩
  · intro h0
    simp only [find_pdu_size, h0, if_true]
    split_ifs with h1 h2 h3
    · simp only [reduceCtorEq, false_iff]
      omega
    · simp only [reduceCtorEq, false_iff]
      omega
    · simp only [reduceCtorEq, false_iff]
      omega
    · simp only [Option.some.injEq, Prod.mk.injEq, true_and]
      omega
  · intro h2len h0 hland
    simp only [find_pdu_size]
    rw [if_neg (by omega), if_neg h0, if_pos hland]
    split_ifs with h1
    · simp only [reduceCtorEq, false_iff]
      omega
    · simp only [Option.some.injEq, Prod.mk.injEq, true_and]
      omega
  · intro h2len h0 hland
    simp only [find_pdu_size]
    rw [if_neg (by omega), if_neg h0, if_neg hland]
    split_ifs with h1 h2
    · simp only [reduceCtorEq, false_iff]
      omega
    · simp only [reduceCtorEq, false_iff]
      omega
    · simp only [Option.some.injEq, Prod.mk.injEq, true_and]
      omega
  · intro hc
    show Nat.land (buf.getD 1 0) 127 <<< 8 ||| buf.getD 2 0 =
      256 * (buf.getD 1 0 % 128) + buf.getD 2 0
    have h127 : ∀ b : Nat, Nat.land b 127 = b % 128 := by
      intro b
      have h := Nat.and_pow_two_sub_one_eq_mod b 7
      norm_num at h
      exact h
    rw [h127, Nat.shiftLeft_eq]
    rw [lor_eq_add_of_lt 8 (buf.getD 1 0 % 128) (buf.getD 2 0) (by omega)]
    omega

/-- Witness for C2 at a concrete legacy-marker buffer. -/
theorem claim_C2_witness :
    find_pdu_size [3, 0, 0, 4] = some (Action.X224, 4) :=
  ((claim_C2 [3, 0, 0, 4] 4).1 (by decide)).mpr (by decide)

/-- Counterexample to C3 as stated: the source computes the threshold
comparison with `u32` *saturating* multiplication, not exact integer
arithmetic.  A dirty area of `6554 * 6554` pixels saturates
`dirty * 100` at `2^32 - 1`, and a 60000x60000 desktop at threshold 100
saturates the right-hand side too, so the code reports `true` although
the exact comparison is `false`. -/
theorem claim_C3_counterexample :
    should_emit_full_frame [⟨0, 0, 6554, 6554⟩] 60000 60000 100 = true ∧
    should_emit_full_frame_exact [⟨0, 0, 6554, 6554⟩] 60000 60000 100 = false :=
  ⟨by decide, by decide⟩

/-- Claim C3, amended: `should_emit_full_frame` returns true exactly when
the list is non-empty, the desktop is non-degenerate, and
`dirty.saturating_mul(100) ≥ total.saturating_mul(threshold)` in `u32`
saturating arithmetic; this coincides with the exact integer comparison
whenever both products fit in 32 bits.  The concrete 64x64 examples and
the empty-list and zero-desktop cases behave as claimed. -/
theorem claim_C3_amended :
    (∀ (rects : List FrameRect) (dw dh tp : Nat),
      (should_emit_full_frame rects dw dh tp = true ↔
        rects ≠ [] ∧ dw ≠ 0 ∧ dh ≠ 0 ∧
        satMul32 (total_dirty_area rects) 100 ≥ satMul32 (dw * dh) tp)) ∧
    (∀ (rects : List FrameRect) (dw dh tp : Nat),
      (rects.map FrameRect.area).sum * 100 < 2 ^ 32 → dw * dh * tp < 2 ^ 32 →
      (should_emit_full_frame rects dw dh tp = true ↔
        rects ≠ [] ∧ dw ≠ 0 ∧ dh ≠ 0 ∧
        (rects.map FrameRect.area).sum * 100 ≥ dw * dh * tp)) ∧
    should_emit_full_frame [⟨0, 0, 64, 64⟩] 100 100 40 = true ∧
    should_emit_full_frame [⟨0, 0, 64, 64⟩] 200 200 40 = false ∧
    (∀ dw dh tp, should_emit_full_frame [] dw dh tp = false) ∧
    (∀ rects dh tp, should_emit_full_frame rects 0 dh tp = false) ∧
    (∀ rects dw tp, should_emit_full_frame rects dw 0 tp = false) := by
  have key : ∀ (rects : List FrameRect) (dw dh tp : Nat),
      (should_emit_full_frame rects dw dh tp = true ↔
        rects ≠ [] ∧ dw ≠ 0 ∧ dh ≠ 0 ∧
        satMul32 (total_dirty_area rects) 100 ≥ satMul32 (dw * dh) tp) := by
    intro rects dw dh tp
    unfold should_emit_full_frame
    split_ifs with h
    · constructor
      · intro hx
        exact absurd hx (by simp)
      · rintro ⟨h1, h2, h3, -⟩
        rcases h with h | h | h
        · exact h1 (by simpa using h)
        · exact h2 h
        · exact h3 h
    · simp only [decide_eq_true_eq]
      push_neg at h
      obtain ⟨h1, h2, h3⟩ := h
      constructor
      · intro hge
        exact ⟨by simpa using h1, h2, h3, hge⟩
      · rintro ⟨-, -, -, hge⟩
        exact hge
  refine ⟨key, ?_, by decide, by decide, ?_, ?_, ?_⟩
  · intro rects dw dh tp hs ht
    rw [key rects dw dh tp]
    have hsum : (rects.map FrameRect.area).sum < 2 ^ 32 := by
      nlinarith [hs]
    have e1 : total_dirty_area rects = (rects.map FrameRect.area).sum := by
      rw [total_dirty_area_eq, Nat.mod_eq_of_lt hsum]
    have e2 : satMul32 (total_dirty_area rects) 100 =
        (rects.map FrameRect.area).sum * 100 := by
      rw [e1]
      unfold satMul32
      omega
    have e3 : satMul32 (dw * dh) tp = dw * dh * tp := by
      unfold satMul32
      omega
    rw [e2, e3]
  · intro dw dh tp
    simp [should_emit_full_frame]
  · intro rects dh tp
    simp [should_emit_full_frame]
  · intro rects dw tp
    simp [should_emit_full_frame]

/-- Witness for the amended C3 at the example given by the spec. -/
theorem claim_C3_witness :
    should_emit_full_frame [⟨0, 0, 64, 64⟩] 100 100 40 = true ∧
    (([(⟨0, 0, 64, 64⟩ : FrameRect)].map FrameRect.area).sum * 100 ≥
      100 * 100 * 40) := by
  have h := claim_C3_amended.2.1 [⟨0, 0, 64, 64⟩] 100 100 40 (by decide) (by decide)
  exact ⟨h.mpr ⟨by decide, by decide, by decide, by decide⟩, by decide⟩

/-- Counterexample to C5 as stated: a rectangle lying fully beyond the
right edge of a 10x10 desktop (`left = 500 ≥ 10`) is not discarded — the
`min`-clamping squashes it to a one-pixel sliver at the desktop
boundary. -/
theorem claim_C5_counterexample :
    rect_from_inclusive ⟨500, 0, 600, 0⟩ 10 10 = some ⟨9, 0, 1, 1⟩ ∧
    (10 : Nat) ≤ 500 :=
  ⟨by decide, by decide⟩

/-- Claim C5, amended: every edge coordinate is clamped independently to
`[0, desktop - 1]`; the rectangle is discarded iff the desktop is
zero-sized or the clamped right and bottom edges are inverted; any
returned rect has width and height at least 1 and lies inside the
desktop; and a rectangle that genuinely intersects the desktop yields
exactly the input clipped to the desktop.  (A non-inverted rectangle
fully beyond the right or bottom edge is clamped to a boundary sliver,
not discarded.) -/
theorem claim_C5_amended :
    ∀ (r : InclusiveRectangle) (dw dh : Nat),
      (rect_from_inclusive r dw dh = none ↔
        dw = 0 ∨ dh = 0 ∨ min r.right (dw - 1) < min r.left (dw - 1) ∨
          min r.bottom (dh - 1) < min r.top (dh - 1)) ∧
      (∀ f, rect_from_inclusive r dw dh = some f →
        f = ⟨min r.left (dw - 1), min r.top (dh - 1),
             min r.right (dw - 1) - min r.left (dw - 1) + 1,
             min r.bottom (dh - 1) - min r.top (dh - 1) + 1⟩ ∧
        1 ≤ f.width ∧ 1 ≤ f.height ∧
        f.x + f.width ≤ dw ∧ f.y + f.height ≤ dh) ∧
      (r.left ≤ r.right → r.top ≤ r.bottom → r.left < dw → r.top < dh →
        rect_from_inclusive r dw dh =
          some ⟨r.left, r.top, min r.right (dw - 1) - r.left + 1,
                min r.bottom (dh - 1) - r.top + 1⟩) := by
  intro r dw dh
  refine ⟨?_, ?_, ?_⟩
  · simp only [rect_from_inclusive]
    split_ifs with h1 h2
    · constructor
      · intro _
        rcases h1 with h | h
        · exact Or.inl h
        · exact Or.inr (Or.inl h)
      · intro _
        rfl
    · constructor
      · intro _
        rcases h2 with h | h
        · exact Or.inr (Or.inr (Or.inl h))
        · exact Or.inr (Or.inr (Or.inr h))
      · intro _
        rfl
    · simp only [reduceCtorEq, false_iff]
      push_neg at h1 h2
      omega
  · intro f hf
    simp only [rect_from_inclusive] at hf
    split_ifs at hf with h1 h2
    injection hf with hf'
    subst hf'
    push_neg at h1 h2
    refine ⟨rfl, ?_, ?_, ?_, ?_⟩ <;> dsimp only <;> omega
  · intro hlr htb hld htd
    simp only [rect_from_inclusive]
    rw [if_neg (by omega), if_neg (by omega)]
    have e1 : min r.left (dw - 1) = r.left := by omega
    have e2 : min r.top (dh - 1) = r.top := by omega
    rw [e1, e2]

/-- Witness for the amended C5: a rectangle overlapping the desktop edge
is clipped exactly. -/
theorem claim_C5_witness :
    rect_from_inclusive ⟨2, 3, 50, 7⟩ 10 10 = some ⟨2, 3, 8, 5⟩ := by
  have h := (claim_C5_amended ⟨2, 3, 50, 7⟩ 10 10).2.2 (by decide) (by decide)
    (by decide) (by decide)
  exact h.trans (by decide)

/-- Claim C4: one adaptive-controller tick.  An over-budget tick
(encode time strictly exceeding the frame-interval target) increments the
over-budget streak and zeroes the under-budget streak, and conversely;
when the over-budget streak reaches 3 the frame-interval level steps to
the next coarser level (unless already coarsest), JPEG quality drops by 5
clamped at the floor 75, and the streak resets; when the under-budget
streak reaches 20 the level steps finer (unless already finest), quality
rises by 3 clamped at the ceiling 92, and that streak resets. -/
theorem claim_C4 :
    ∀ (s : AdaptState) (encode_ms frame_interval_ms : Nat),
      s.over_budget_streak < OVER_BUDGET_STREAK_THRESHOLD →
      s.under_budget_streak < UNDER_BUDGET_STREAK_THRESHOLD →
      (encode_ms > frame_interval_ms →
        (s.over_budget_streak + 1 < 3 →
          adapt_tick s encode_ms frame_interval_ms =
            ⟨s.frame_interval_idx, s.jpeg_quality, s.over_budget_streak + 1, 0⟩) ∧
        (s.over_budget_streak + 1 = 3 →
          adapt_tick s encode_ms frame_interval_ms =
            ⟨if s.frame_interval_idx + 1 < 4 then s.frame_interval_idx + 1
              else s.frame_interval_idx,
             max (s.jpeg_quality - 5) 75, 0, 0⟩)) ∧
      (encode_ms ≤ frame_interval_ms →
        (s.under_budget_streak + 1 < 20 →
          adapt_tick s encode_ms frame_interval_ms =
            ⟨s.frame_interval_idx, s.jpeg_quality, 0, s.under_budget_streak + 1⟩) ∧
        (s.under_budget_streak + 1 = 20 →
          adapt_tick s encode_ms frame_interval_ms =
            ⟨if s.frame_interval_idx > 0 then s.frame_interval_idx - 1
              else s.frame_interval_idx,
             min (s.jpeg_quality + 3) 92, 0, 0⟩)) := by
  intro s enc ms hov hun
  obtain ⟨idx, q, ov, un⟩ := s
  simp only [OVER_BUDGET_STREAK_THRESHOLD, UNDER_BUDGET_STREAK_THRESHOLD] at hov hun
  dsimp only at hov hun ⊢
  have hlen : FRAME_INTERVAL_LEVELS.length = 4 := rfl
  refine ⟨fun hgt => ⟨fun hlt => ?_, fun heq => ?_⟩,
          fun hle => ⟨fun hlt => ?_, fun heq => ?_⟩⟩
  · simp only [adapt_tick, satAdd8, OVER_BUDGET_STREAK_THRESHOLD,
      UNDER_BUDGET_STREAK_THRESHOLD]
    rw [if_pos hgt, (by omega : min (ov + 1) 255 = ov + 1),
      if_neg (by dsimp only; omega), if_neg (by dsimp only; omega)]
  · simp only [adapt_tick, satAdd8, OVER_BUDGET_STREAK_THRESHOLD,
      UNDER_BUDGET_STREAK_THRESHOLD]
    rw [if_pos hgt, (by omega : min (ov + 1) 255 = ov + 1),
      if_pos (by dsimp only; omega)]
    rfl
  · simp only [adapt_tick, satAdd8, OVER_BUDGET_STREAK_THRESHOLD,
      UNDER_BUDGET_STREAK_THRESHOLD]
    rw [if_neg (by omega : ¬enc > ms), (by omega : min (un + 1) 255 = un + 1),
      if_neg (by dsimp only; omega), if_neg (by dsimp only; omega)]
  · simp only [adapt_tick, satAdd8, OVER_BUDGET_STREAK_THRESHOLD,
      UNDER_BUDGET_STREAK_THRESHOLD]
    rw [if_neg (by omega : ¬enc > ms), (by omega : min (un + 1) 255 = un + 1),
      if_neg (by dsimp only; omega), if_pos (by dsimp only; omega)]
    dsimp only
    simp only [JPEG_QUALITY_STEP_UP, JPEG_QUALITY_MAX]
    rw [(by omega : min (min (q + 3) 255) 92 = min (q + 3) 92)]

/-- Witness for C4: from streak 2 at the finest level, a third
consecutive over-budget tick steps the level coarser and drops quality
from 92 to 87. -/
theorem claim_C4_witness :
    adapt_tick ⟨0, 92, 2, 0⟩ 100 33 = ⟨1, 87, 0, 0⟩ := by
  have h := ((claim_C4 ⟨0, 92, 2, 0⟩ 100 33 (by decide) (by decide)).1
    (by decide)).2 (by decide)
  rw [h]
  rfl

/-- A press operation can only come from the transition list of its own
button, with a rising bit. -/
theorem mem_press_transition {buttons prev mask : Nat} {b btn : MouseButton}
    (h : Operation.MouseButtonPressed b ∈ button_transition_ops buttons prev mask btn) :
    b = btn ∧ Nat.land buttons mask ≠ 0 ∧ Nat.land prev mask = 0 := by
  unfold button_transition_ops at h
  split_ifs at h with h1 h2
  · simp only [List.mem_singleton, Operation.MouseButtonPressed.injEq] at h
    exact ⟨h, h1.1, h1.2⟩
  · simp at h
  · simp at h

/-- A release operation can only come from the transition list of its own
button, with a falling bit. -/
theorem mem_release_transition {buttons prev mask : Nat} {b btn : MouseButton}
    (h : Operation.MouseButtonReleased b ∈ button_transition_ops buttons prev mask btn) :
    b = btn ∧ Nat.land buttons mask = 0 ∧ Nat.land prev mask ≠ 0 := by
  unfold button_transition_ops at h
  split_ifs at h with h1 h2
  · simp at h
  · simp only [List.mem_singleton, Operation.MouseButtonReleased.injEq] at h
    exact ⟨h, h2.1, h2.2⟩
  · simp at h

/-- Claim C8: `translate_mouse` produces exactly one mouse move first,
then in the fixed order left, right, middle, extra1, extra2 exactly one
press per rising button bit and one release per falling bit (never both
for one button), then a vertical wheel operation iff the delta is
non-zero, and nothing else. -/
theorem claim_C8 :
    ∀ (x y buttons prev_buttons : Nat) (wheel_delta : Int),
      translate_mouse x y buttons prev_buttons wheel_delta =
        Operation.MouseMove ⟨x, y⟩ ::
          (button_transition_ops buttons prev_buttons 1 MouseButton.Left ++
           button_transition_ops buttons prev_buttons 2 MouseButton.Right ++
           button_transition_ops buttons prev_buttons 4 MouseButton.Middle ++
           button_transition_ops buttons prev_buttons 8 MouseButton.X1 ++
           button_transition_ops buttons prev_buttons 16 MouseButton.X2) ++
          (if wheel_delta ≠ 0 then [Operation.WheelRotations ⟨true, wheel_delta⟩]
           else []) ∧
      (∀ b : MouseButton,
        ¬(Operation.MouseButtonPressed b ∈
            translate_mouse x y buttons prev_buttons wheel_delta ∧
          Operation.MouseButtonReleased b ∈
            translate_mouse x y buttons prev_buttons wheel_delta)) := by
  intro x y buttons prev w
  have hstep : ∀ (acc : List Operation) (mask : Nat) (btn : MouseButton),
      (if Nat.land buttons mask ≠ 0 ∧ ¬Nat.land prev mask ≠ 0 then
        acc ++ [Operation.MouseButtonPressed btn]
      else if ¬Nat.land buttons mask ≠ 0 ∧ Nat.land prev mask ≠ 0 then
        acc ++ [Operation.MouseButtonReleased btn]
      else acc) = acc ++ button_transition_ops buttons prev mask btn := by
    intro acc mask btn
    by_cases h1 : Nat.land buttons mask = 0 <;> by_cases h2 : Nat.land prev mask = 0 <;>
      simp [button_transition_ops, h1, h2]
  have hmain : translate_mouse x y buttons prev w =
      Operation.MouseMove ⟨x, y⟩ ::
        (button_transition_ops buttons prev 1 MouseButton.Left ++
         button_transition_ops buttons prev 2 MouseButton.Right ++
         button_transition_ops buttons prev 4 MouseButton.Middle ++
         button_transition_ops buttons prev 8 MouseButton.X1 ++
         button_transition_ops buttons prev 16 MouseButton.X2) ++
        (if w ≠ 0 then [Operation.WheelRotations ⟨true, w⟩] else []) := by
    simp only [translate_mouse, button_map, List.foldl_cons, List.foldl_nil]
    simp only [hstep]
    by_cases hw : w = 0 <;> simp [hw, List.append_assoc]
  refine ⟨hmain, ?_⟩
  rintro b ⟨hp, hr⟩
  rw [hmain] at hp hr
  rcases List.mem_cons.mp hp with h | h
  · simp at h
  rcases List.mem_append.mp h with h | h
  swap
  · revert h
    split_ifs <;> simp
  rcases List.mem_cons.mp hr with g | g
  · simp at g
  rcases List.mem_append.mp g with g | g
  swap
  · revert g
    split_ifs <;> simp
  simp only [List.mem_append] at h g
  rcases h with (((h | h) | h) | h) | h <;> rcases g with (((g | g) | g) | g) | g <;>
    (obtain ⟨rfl, hc1, hc2⟩ := mem_press_transition h;
     obtain ⟨hb, gc1, gc2⟩ := mem_release_transition g;
     simp_all)

/-- Witness for C8: a left-button press with no wheel movement. -/
theorem claim_C8_witness :
    translate_mouse 5 7 1 0 0 =
      [Operation.MouseMove ⟨5, 7⟩, Operation.MouseButtonPressed MouseButton.Left] ∧
    ¬(Operation.MouseButtonPressed MouseButton.Left ∈ translate_mouse 5 7 1 0 0 ∧
      Operation.MouseButtonReleased MouseButton.Left ∈ translate_mouse 5 7 1 0 0) :=
  ⟨((claim_C8 5 7 1 0 0).1).trans (by decide), (claim_C8 5 7 1 0 0).2 MouseButton.Left⟩

/-- Claim C6: on a tick whose merged rect set is non-empty but whose
encoding produces zero patches, no frame is emitted, the sequence
counter is unchanged, the keyframe timer is not reset, and the merged
rects are placed back in the pending dirty-rect set. -/
theorem claim_C6 :
    ∀ (width height : Nat) (env : TickEnv) (st : SessState),
      tick_merged width height env.keyframe_due st.dirty_rects ≠ [] →
      tick_patches width height env st = [] →
      (encode_tick width height env st).2.1 = none ∧
      (encode_tick width height env st).1.frame_seq = st.frame_seq ∧
      (encode_tick width height env st).2.2 = false ∧
      (encode_tick width height env st).1.dirty_rects =
        tick_merged width height env.keyframe_due st.dirty_rects ∧
      (encode_tick width height env st).1.dirty_rects ≠ [] := by
  intro w h env st hm hp
  have hE : (tick_patches w h env st).isEmpty = true := by rw [hp]; rfl
  refine ⟨?_, ?_, ?_, ?_, ?_⟩ <;> (simp only [encode_tick]; rw [if_pos hE]) <;>
    first
      | rfl
      | exact hm

/-- Witness for C6: an encoder that always fails leaves the sequence
number at 5, emits nothing, and requeues the merged rect. -/
theorem claim_C6_witness :
    (encode_tick 100 100 failing_env ⟨[⟨0, 0, 1, 1⟩], 5, ⟨0, 92, 0, 0⟩⟩).2.1 = none ∧
    (encode_tick 100 100 failing_env ⟨[⟨0, 0, 1, 1⟩], 5, ⟨0, 92, 0, 0⟩⟩).1.frame_seq = 5 ∧
    (encode_tick 100 100 failing_env ⟨[⟨0, 0, 1, 1⟩], 5, ⟨0, 92, 0, 0⟩⟩).2.2 = false ∧
    (encode_tick 100 100 failing_env ⟨[⟨0, 0, 1, 1⟩], 5, ⟨0, 92, 0, 0⟩⟩).1.dirty_rects =
      [⟨0, 0, 1, 1⟩] := by
  have h := claim_C6 100 100 failing_env ⟨[⟨0, 0, 1, 1⟩], 5, ⟨0, 92, 0, 0⟩⟩
    (by decide) (by decide)
  obtain ⟨h1, h2, h3, h4, -⟩ := h
  exact ⟨h1, h2, h3, h4.trans (by decide)⟩

/-- A tick that emits no frame leaves the sequence counter unchanged. -/
theorem encode_tick_none_seq (w h : Nat) (env : TickEnv) (st : SessState)
    (hn : (encode_tick w h env st).2.1 = none) :
    (encode_tick w h env st).1.frame_seq = st.frame_seq := by
  by_cases hc : (tick_patches w h env st).isEmpty = true
  · simp only [encode_tick]
    rw [if_pos hc]
  · simp only [encode_tick] at hn
    rw [if_neg hc] at hn
    dsimp only at hn
    exact absurd hn (by simp)

/-- A tick that emits a frame stamps it with the current counter and
advances the counter by a saturating increment. -/
theorem encode_tick_some_seq (w h : Nat) (env : TickEnv) (st : SessState)
    (f : RdpFrame) (hf : (encode_tick w h env st).2.1 = some f) :
    f.seq = st.frame_seq ∧
    (encode_tick w h env st).1.frame_seq = satAdd64 st.frame_seq 1 := by
  by_cases hc : (tick_patches w h env st).isEmpty = true
  · simp only [encode_tick] at hf
    rw [if_pos hc] at hf
    exact absurd hf (by simp)
  · simp only [encode_tick] at hf ⊢
    rw [if_neg hc] at hf
    rw [if_neg hc]
    dsimp only at hf ⊢
    injection hf with hf'
    subst hf'
    exact ⟨rfl, rfl⟩

/-- Frames emitted along a run of ticks carry consecutive sequence
numbers starting from the initial counter, as long as the counter cannot
saturate. -/
theorem run_ticks_seq (width height : Nat) :
    ∀ (envs : List TickEnv) (st : SessState),
      st.frame_seq + (run_ticks width height envs st).2.length ≤ 2 ^ 64 - 1 →
      ∀ i, i < (run_ticks width height envs st).2.length →
        ((run_ticks width height envs st).2.getD i default).seq =
          st.frame_seq + i := by
  intro envs
  induction envs with
  | nil =>
    intro st hb i hi
    simp [run_ticks] at hi
  | cons e rest ih =>
    intro st hb i hi
    rcases hopt : (encode_tick width height e st).2.1 with - | f
    · have hseq := encode_tick_none_seq width height e st hopt
      simp only [run_ticks, hopt, Option.toList_none, List.nil_append] at hb hi ⊢
      have hrec := ih (encode_tick width height e st).1 (by rw [hseq]; exact hb) i hi
      rw [hrec, hseq]
    · have hsome := encode_tick_some_seq width height e st f hopt
      simp only [run_ticks, hopt, Option.toList_some, List.singleton_append,
        List.length_cons] at hb hi ⊢
      have hsat : satAdd64 st.frame_seq 1 = st.frame_seq + 1 := by
        unfold satAdd64
        omega
      cases i with
      | zero => simpa using hsome.1
      | succ j =>
        have hj : j <
            (run_ticks width height rest (encode_tick width height e st).1).2.length := by
          omega
        have hrec := ih (encode_tick width height e st).1
          (by rw [hsome.2, hsat]; omega) j hj
        simp only [List.getD_cons_succ]
        rw [hrec, hsome.2, hsat]
        omega

/-- Claim C7: within one session the frame sequence starts at 0 and is
stamped consecutively: the `n`-th emitted frame (1-based) carries
`seq = n - 1`, with nothing reused or skipped; a tick that emits no frame
leaves the counter unchanged, and a tick that emits a frame stamps the
current counter and then increments it by exactly 1 (short of the `u64`
saturation point). -/
theorem claim_C7 :
    ∀ (width height : Nat) (envs : List TickEnv) (st : SessState),
      st.frame_seq = 0 →
      (run_ticks width height envs st).2.length < 2 ^ 64 →
      (∀ i, i < (run_ticks width height envs st).2.length →
        ((run_ticks width height envs st).2.getD i default).seq = i) ∧
      (∀ (env : TickEnv) (st' : SessState),
        ((encode_tick width height env st').2.1 = none →
          (encode_tick width height env st').1.frame_seq = st'.frame_seq) ∧
        (∀ f, (encode_tick width height env st').2.1 = some f →
          f.seq = st'.frame_seq ∧
          (st'.frame_seq < 2 ^ 64 - 1 →
            (encode_tick width height env st').1.frame_seq =
              st'.frame_seq + 1))) := by
  intro w h envs st h0 hlen
  constructor
  · intro i hi
    have hrec := run_ticks_seq w h envs st (by rw [h0]; omega) i hi
    rw [hrec, h0, Nat.zero_add]
  · intro env st'
    refine ⟨encode_tick_none_seq w h env st', ?_⟩
    intro f hf
    have hs := encode_tick_some_seq w h env st' f hf
    refine ⟨hs.1, fun hlt => ?_⟩
    rw [hs.2]
    unfold satAdd64
    omega

/-- Witness for C7: a one-tick run that emits a frame stamps it with
sequence number 0. -/
theorem claim_C7_witness :
    ((run_ticks 100 100 [ok_env] ⟨[⟨0, 0, 1, 1⟩], 0, ⟨0, 92, 0, 0⟩⟩).2.getD 0
      default).seq = 0 := by
  have h := (claim_C7 100 100 [ok_env] ⟨[⟨0, 0, 1, 1⟩], 0, ⟨0, 92, 0, 0⟩⟩ rfl
    (by decide)).1 0 (by decide)
  exact h

/-- Claim C1: `merge_rects` reaches a fixed point in which no two
distinct rectangles intersect or touch; it is idempotent; and on `u16`
rectangle lists its result is, as a multiset, independent of the input
ordering. -/
theorem claim_C1 :
    (∀ rects : List FrameRect,
      (merge_rects rects).Pairwise
        (fun a b => a.intersects_or_adjacent b = false)) ∧
    (∀ rects : List FrameRect,
      merge_rects (merge_rects rects) = merge_rects rects) ∧
    (∀ l₁ l₂ : List FrameRect, (∀ r ∈ l₁, r.WF) → (∀ r ∈ l₂, r.WF) →
      l₁.Perm l₂ → (merge_rects l₁).Perm (merge_rects l₂)) :=
  ⟨merge_rects_pairwise, merge_rects_idem, merge_rects_perm⟩

/-- Witness for C1 on two concrete `u16` rectangles given in both
orders. -/
theorem claim_C1_witness :
    (∀ r ∈ [(⟨0, 0, 10, 10⟩ : FrameRect), ⟨10, 0, 10, 10⟩], r.WF) ∧
    (merge_rects [(⟨0, 0, 10, 10⟩ : FrameRect), ⟨10, 0, 10, 10⟩]).Perm
      (merge_rects [(⟨10, 0, 10, 10⟩ : FrameRect), ⟨0, 0, 10, 10⟩]) := by
  have h1 : ∀ r ∈ [(⟨0, 0, 10, 10⟩ : FrameRect), ⟨10, 0, 10, 10⟩], r.WF := by decide
  have h2 : ∀ r ∈ [(⟨10, 0, 10, 10⟩ : FrameRect), ⟨0, 0, 10, 10⟩], r.WF := by decide
  exact ⟨h1, claim_C1.2.2 _ _ h1 h2 (List.Perm.swap _ _ _)⟩

end Janus
